import Mathlib

/-!
Verification development for the Deal-or-No-Deal game in `src/main.cpp`.

Modelling conventions (shallow embedding):
* Monetary values (C++ `double`) are modelled as exact rationals `ℚ`.
* `std::sqrt` on doubles has no exact counterpart on `ℚ`; the advisor
  functions are therefore parameterised by an abstract square-root
  function `sqrtFn : ℚ → ℚ`.  Every theorem about the advisor is proved
  for all such functions, so it holds in particular for the interpretation
  chosen for `std::sqrt`.  The square root is only ever applied to the
  variance and compared afterwards, so no property of `sqrtFn` is needed.
* The process-global Mersenne-Twister generator is modelled by oracle
  functions: `shuffleSel : List ℤ → List ℤ` reorders the available case
  list inside `ComputerPlayer::selectCasesToOpen` (`std::shuffle`), and
  `shuffleP : List ℚ → List ℚ` reorders the prize catalog inside
  `DealOrNoDealGame::shufflePrizes`.  Where a property needs the oracle to
  behave like a shuffle, the hypothesis `∀ l, (shuffle l).Perm l` is added.
* Case identifiers are `ℤ` (C++ `int`), so the out-of-range check
  `caseNum < 0 || caseNum >= 26` of `openCases` is represented faithfully.
* Exceptions (`GameStateException`) become `Except`.  The error value of
  `openCases` carries the game state at the moment of the throw, so that
  claims about (non-)mutation on failure are expressible.
* The interactive input loops of `playGame` are abstracted into a
  selection oracle `sel : ℕ → List ℤ` (the validated case choices of each
  round) and a decision oracle `dec : ℕ → ℚ → Bool` (the deal / no-deal
  answers); the validation loop of `playGame` guarantees that `sel` never
  yields the player's case, an already-open case, or a duplicate, and
  those guarantees appear as hypotheses where they are needed.
-/

/-- The fixed prize catalog of `DealOrNoDealGame::initializePrizes`
(`src/main.cpp:202-212`): 26 values from $0.01 to $1,000,000. -/
def allPrizes : List ℚ :=
  [1/100, 1, 5, 10, 25, 50, 75, 100, 200, 300,
   400, 500, 750, 1000, 5000, 10000, 25000, 50000,
   75000, 100000, 200000, 300000, 400000, 500000, 750000, 1000000]

/-- The mutable per-game state of `DealOrNoDealGame`
(`src/main.cpp:190-197`): the shuffled case values, the opened-set, the
cached list of still-hidden prizes, the player's reserved case and the
round counter. -/
structure GameState where
  caseValues : List ℚ
  casesOpened : List Bool
  remainingPrizes : List ℚ
  playerCase : ℤ
  round : ℕ
deriving DecidableEq

namespace ComputerPlayer

/-- `ComputerPlayer::calculateExpectedValue` (`src/main.cpp:74-82`):
mean of the remaining prizes, 0 for an empty list. -/
def calculateExpectedValue (remainingPrizes : List ℚ) : ℚ :=
  if remainingPrizes = [] then 0
  else remainingPrizes.sum / remainingPrizes.length

/-- `ComputerPlayer::calculateStandardDeviation` (`src/main.cpp:85-97`):
0 for fewer than two values, otherwise the square root of the population
variance (sum of squared deviations divided by the count). -/
def calculateStandardDeviation (sqrtFn : ℚ → ℚ) (remainingPrizes : List ℚ) : ℚ :=
  if remainingPrizes.length ≤ 1 then 0
  else
    let mean := calculateExpectedValue remainingPrizes
    let variance :=
      (remainingPrizes.map (fun prize => (prize - mean) * (prize - mean))).sum
        / remainingPrizes.length
    sqrtFn variance

/-- `ComputerPlayer::calculateRiskFactor` (`src/main.cpp:100-115`):
fraction of remaining prizes strictly above the bank offer, minus
0.3 times the variance-based risk adjustment. -/
def calculateRiskFactor (sqrtFn : ℚ → ℚ) (remainingPrizes : List ℚ) (bankOffer : ℚ) : ℚ :=
  let expectedValue := calculateExpectedValue remainingPrizes
  let stdDev := calculateStandardDeviation sqrtFn remainingPrizes
  let riskAdjustment := stdDev / (expectedValue + 1)
  let betterCount := (remainingPrizes.filter (fun prize => decide (bankOffer < prize))).length
  let probBetter := (betterCount : ℚ) / remainingPrizes.length
  probBetter - riskAdjustment * (3/10)

/-- `ComputerPlayer::shouldAcceptDeal` (`src/main.cpp:121-139`):
the three-tier accept / reject heuristic of the computer player. -/
def shouldAcceptDeal (sqrtFn : ℚ → ℚ) (remainingPrizes : List ℚ) (bankOffer : ℚ)
    (casesRemaining : ℕ) : Bool :=
  if remainingPrizes = [] then true
  else
    let expectedValue := calculateExpectedValue remainingPrizes
    if 10 < casesRemaining then decide (expectedValue * (9/10) ≤ bankOffer)
    else if 5 < casesRemaining then decide (expectedValue * (85/100) ≤ bankOffer)
    else
      decide (calculateRiskFactor sqrtFn remainingPrizes bankOffer < 4/10)
        || decide (expectedValue * (8/10) ≤ bankOffer)

/-- `ComputerPlayer::selectCasesToOpen` (`src/main.cpp:168-184`):
collect the unopened case indices in ascending order, shuffle them with
the generator (oracle `shuffleSel`), and take the first
`min numToOpen size` of them. -/
def selectCasesToOpen (shuffleSel : List ℤ → List ℤ) (casesOpened : List Bool)
    (numToOpen : ℕ) : List ℤ :=
  let availableCases :=
    ((List.range casesOpened.length).filter
      (fun i => !(casesOpened.getD i true))).map Int.ofNat
  let shuffled := shuffleSel availableCases
  shuffled.take (min numToOpen shuffled.length)

end ComputerPlayer

namespace DealOrNoDealGame

/-- `DealOrNoDealGame::updateRemainingPrizes` (`src/main.cpp:223-231`):
the prize values of all unopened cases, sorted descending
(`std::sort(rbegin, rend)`). -/
def updateRemainingPrizes (casesOpened : List Bool) (caseValues : List ℚ) : List ℚ :=
  List.insertionSort (· ≥ ·)
    ((casesOpened.zip caseValues).filterMap
      (fun p => if p.1 then none else some p.2))

/-- `DealOrNoDealGame::calculateBankOffer` (`src/main.cpp:234-249`):
0 on an empty pool, otherwise the mean of the remaining prizes times a
round-dependent percentage `0.1 + round * 0.05` capped at `0.9`. -/
def calculateBankOffer (remainingPrizes : List ℚ) (round : ℕ) : ℚ :=
  if remainingPrizes = [] then 0
  else
    let averageValue := remainingPrizes.sum / remainingPrizes.length
    let offerPercentage : ℚ := 1/10 + (round : ℚ) * (5/100)
    let offerPercentage := if 9/10 < offerPercentage then 9/10 else offerPercentage
    averageValue * offerPercentage

/-- One step of the loop of `DealOrNoDealGame::openCases`
(`src/main.cpp:352-370`): validate and mark each case in turn; a throw of
`GameStateException` is modelled as `Except.error` carrying the state at
the moment of the throw (cases opened earlier in the same call stay open). -/
def openCasesLoop : List ℤ → GameState → Except GameState GameState
  | [], st => Except.ok st
  | caseNum :: rest, st =>
    if caseNum < 0 ∨ 26 ≤ caseNum then Except.error st
    else if st.casesOpened.getD caseNum.toNat false then Except.error st
    else openCasesLoop rest
      { st with casesOpened := st.casesOpened.set caseNum.toNat true }

/-- `DealOrNoDealGame::openCases` (`src/main.cpp:352-370`): open the given
cases one by one, then recompute the hidden-prize list; the
recomputation only happens when no throw occurred. -/
def openCases (casesToOpen : List ℤ) (st : GameState) : Except GameState GameState :=
  match openCasesLoop casesToOpen st with
  | Except.ok st' =>
      Except.ok { st' with
        remainingPrizes := updateRemainingPrizes st'.casesOpened st'.caseValues }
  | Except.error st' => Except.error st'

/-- `DealOrNoDealGame::shufflePrizes` (`src/main.cpp:215-220`): assign a
shuffled copy of the catalog to the cases, reset the opened-set and
recompute the hidden prizes. -/
def shufflePrizes (shuffleP : List ℚ → List ℚ) (st : GameState) : GameState :=
  let caseValues := shuffleP allPrizes
  let casesOpened := List.replicate 26 false
  { st with
    caseValues := caseValues
    casesOpened := casesOpened
    remainingPrizes := updateRemainingPrizes casesOpened caseValues }

/-- The prize behind the player's reserved case
(`caseValues[playerCase]`, read at `src/main.cpp:496` and `:560`). -/
def playerCaseValue (st : GameState) : ℚ :=
  st.caseValues.getD st.playerCase.toNat 0

/-- The fixed round schedule `casesToOpenPerRound`
(`src/main.cpp:438` and `:523`). -/
def casesToOpenPerRound : List ℕ := [6, 5, 4, 3, 2, 1, 1, 1, 1]

/-- How a game instance ends: an accepted bank offer, the final reveal of
the reserved case, or abandonment after a `GameStateException`. -/
inductive Outcome
  | deal : ℚ → Outcome
  | finalReveal : ℚ → Outcome
  | aborted : Outcome
deriving DecidableEq

/-- The round loop of `DealOrNoDealGame::playGame` (`src/main.cpp:438-501`)
for the human player.  `sel k` is the validated selection entered during
round index `k` and `dec k offer` the deal / no-deal answer.  The result
carries the outcome, the final state and the number of offer decisions
taken. -/
def playRounds (sel : ℕ → List ℤ) (dec : ℕ → ℚ → Bool) :
    List ℕ → ℕ → GameState → Outcome × GameState × ℕ
  | [], _, st => (Outcome.finalReveal (playerCaseValue st), st, 0)
  | _roundCases :: restRounds, k, st =>
    if st.remainingPrizes.length ≤ 1 then
      (Outcome.finalReveal (playerCaseValue st), st, 0)
    else
      match openCases (sel k) st with
      | Except.error stErr => (Outcome.aborted, stErr, 0)
      | Except.ok st' =>
        if st'.remainingPrizes.length ≤ 1 then
          (Outcome.finalReveal (playerCaseValue st'), st', 0)
        else
          let bankOffer := calculateBankOffer st'.remainingPrizes st'.round
          if dec k bankOffer then (Outcome.deal bankOffer, st', 1)
          else
            let r := playRounds sel dec restRounds (k + 1)
              { st' with round := st'.round + 1 }
            (r.1, r.2.1, r.2.2 + 1)

/-- The round loop of `DealOrNoDealGame::computerPlay`
(`src/main.cpp:523-564`): the computer samples its cases with
`selectCasesToOpen`, erases its own reserved case from the sample
afterwards (`std::remove` erases every occurrence, hence `filter`), and
decides each offer with `shouldAcceptDeal`. -/
def computerRounds (sqrtFn : ℚ → ℚ) (shuffleSel : List ℤ → List ℤ) :
    List ℕ → GameState → Outcome × GameState × ℕ
  | [], st => (Outcome.finalReveal (playerCaseValue st), st, 0)
  | roundCases :: restRounds, st =>
    if st.remainingPrizes.length ≤ 1 then
      (Outcome.finalReveal (playerCaseValue st), st, 0)
    else
      let casesToOpen :=
        ComputerPlayer.selectCasesToOpen shuffleSel st.casesOpened roundCases
      let casesToOpen := casesToOpen.filter (fun c => decide (c ≠ st.playerCase))
      match openCases casesToOpen st with
      | Except.error stErr => (Outcome.aborted, stErr, 0)
      | Except.ok st' =>
        if st'.remainingPrizes.length ≤ 1 then
          (Outcome.finalReveal (playerCaseValue st'), st', 0)
        else
          let bankOffer := calculateBankOffer st'.remainingPrizes st'.round
          if ComputerPlayer.shouldAcceptDeal sqrtFn st'.remainingPrizes bankOffer
              st'.remainingPrizes.length then
            (Outcome.deal bankOffer, st', 1)
          else
            let r := computerRounds sqrtFn shuffleSel restRounds
              { st' with round := st'.round + 1 }
            (r.1, r.2.1, r.2.2 + 1)

/-- The game state right after case selection and `shufflePrizes`, before
the first round (`src/main.cpp:430-432` and `:516-519`): `round = 1`,
no case opened. -/
def initState (playerChoice : ℤ) : GameState :=
  { caseValues := [], casesOpened := [], remainingPrizes := []
    playerCase := playerChoice, round := 1 }

/-- A whole human game (`DealOrNoDealGame::playGame`,
`src/main.cpp:425-508`) from the player's case choice onwards. -/
def playGameRun (sel : ℕ → List ℤ) (dec : ℕ → ℚ → Bool)
    (shuffleP : List ℚ → List ℚ) (playerChoice : ℤ) : Outcome × GameState × ℕ :=
  playRounds sel dec casesToOpenPerRound 0 (shufflePrizes shuffleP (initState playerChoice))

/-- A whole computer game (`DealOrNoDealGame::computerPlay`,
`src/main.cpp:511-571`) from the computer's case choice onwards. -/
def computerPlayRun (sqrtFn : ℚ → ℚ) (shuffleSel : List ℤ → List ℤ)
    (shuffleP : List ℚ → List ℚ) (playerChoice : ℤ) : Outcome × GameState × ℕ :=
  computerRounds sqrtFn shuffleSel casesToOpenPerRound
    (shufflePrizes shuffleP (initState playerChoice))

end DealOrNoDealGame

/-- The aggregate statistics record (`src/main.cpp:37-66`). -/
structure GameStats where
  gamesPlayed : ℕ
  gamesWon : ℕ
  totalWinnings : ℚ
  bestWinning : ℚ
  averageWinning : ℚ
deriving DecidableEq

/-- `GameStats::updateStats` (`src/main.cpp:44-54`): bump the play count,
accumulate the winnings, track the best and average, and count the game
as won exactly when the payout is strictly positive. -/
def GameStats.updateStats (stats : GameStats) (winnings : ℚ) : GameStats :=
  let gamesPlayed := stats.gamesPlayed + 1
  let totalWinnings := stats.totalWinnings + winnings
  let bestWinning := if stats.bestWinning < winnings then winnings else stats.bestWinning
  let averageWinning := totalWinnings / (gamesPlayed : ℚ)
  let gamesWon := if 0 < winnings then stats.gamesWon + 1 else stats.gamesWon
  { gamesPlayed := gamesPlayed, gamesWon := gamesWon, totalWinnings := totalWinnings
    bestWinning := bestWinning, averageWinning := averageWinning }

/-- Zeroed statistics, the default field values of `GameStats`
(`src/main.cpp:38-42`). -/
def initialGameStats : GameStats :=
  { gamesPlayed := 0, gamesWon := 0, totalWinnings := 0
    bestWinning := 0, averageWinning := 0 }

/-! ### Specification-side definitions

The following definitions transcribe the spec's wording (§4.3, §4.4 of
`spec.md`) so that the code-derived definitions above can be compared
against them.  They are used only on the specification side of
refinement theorems. -/

namespace Spec

/-- Spec §4.4: `expectedValue = mean(hiddenPrizes)`. -/
def expectedValue (hiddenPrizes : List ℚ) : ℚ :=
  hiddenPrizes.sum / hiddenPrizes.length

/-- Spec §4.4: population standard deviation of the hidden prizes (sum of
squared deviations from the mean divided by the count, then
square-rooted); 0 when fewer than 2 values remain. -/
def stdDeviation (sqrtFn : ℚ → ℚ) (hiddenPrizes : List ℚ) : ℚ :=
  if hiddenPrizes.length < 2 then 0
  else sqrtFn
    ((hiddenPrizes.map (fun x => (x - expectedValue hiddenPrizes) ^ 2)).sum
      / hiddenPrizes.length)

/-- Spec §4.4: the fraction of hidden prizes strictly greater than the
offer. -/
def probabilityPrizeExceedsOffer (hiddenPrizes : List ℚ) (offer : ℚ) : ℚ :=
  ((hiddenPrizes.countP (fun x => decide (offer < x))) : ℚ) / hiddenPrizes.length

/-- Spec §4.4:
`riskFactor = probabilityPrizeExceedsOffer - 0.3 * (stdDeviation / (expectedValue + 1))`. -/
def riskFactor (sqrtFn : ℚ → ℚ) (hiddenPrizes : List ℚ) (offer : ℚ) : ℚ :=
  probabilityPrizeExceedsOffer hiddenPrizes offer
    - (3/10) * (stdDeviation sqrtFn hiddenPrizes / (expectedValue hiddenPrizes + 1))

/-- Spec §4.4: the three-tier decision policy of the advisor, plus the
empty-pool edge case (always accept). -/
def advisorAccepts (sqrtFn : ℚ → ℚ) (hiddenPrizes : List ℚ) (offer : ℚ)
    (casesRemaining : ℕ) : Prop :=
  if hiddenPrizes = [] then True
  else if 10 < casesRemaining then (9/10) * expectedValue hiddenPrizes ≤ offer
  else if 5 < casesRemaining then (85/100) * expectedValue hiddenPrizes ≤ offer
  else riskFactor sqrtFn hiddenPrizes offer < 4/10
    ∨ (8/10) * expectedValue hiddenPrizes ≤ offer

end Spec

/-! ### Helper lemmas -/

/-- The mean computed by the code equals `sum / length` even on the empty
list, because `ℚ`-division by zero is zero. -/
theorem calculateExpectedValue_eq (l : List ℚ) :
    ComputerPlayer.calculateExpectedValue l = l.sum / l.length := by
  unfold ComputerPlayer.calculateExpectedValue
  split
  · subst l; simp
  · rfl

/-- The code's standard deviation agrees with the spec's population
standard deviation, for every square-root interpretation. -/
theorem calculateStandardDeviation_eq_spec (sqrtFn : ℚ → ℚ) (l : List ℚ) :
    ComputerPlayer.calculateStandardDeviation sqrtFn l = Spec.stdDeviation sqrtFn l := by
  unfold ComputerPlayer.calculateStandardDeviation Spec.stdDeviation
  have hlen : l.length ≤ 1 ↔ l.length < 2 := by omega
  rcases Nat.lt_or_ge l.length 2 with h | h
  · rw [if_pos (hlen.mpr h), if_pos h]
  · have h1 : ¬ l.length ≤ 1 := by omega
    rw [if_neg h1, if_neg (by omega : ¬ l.length < 2)]
    dsimp only
    rw [calculateExpectedValue_eq]
    congr 1
    unfold Spec.expectedValue
    congr 1
    refine congrArg List.sum (List.map_congr_left ?_)
    intro x _
    rw [sq]

/-- The code's risk factor agrees with the spec's risk factor, for every
square-root interpretation. -/
theorem calculateRiskFactor_eq_spec (sqrtFn : ℚ → ℚ) (l : List ℚ) (offer : ℚ) :
    ComputerPlayer.calculateRiskFactor sqrtFn l offer = Spec.riskFactor sqrtFn l offer := by
  unfold ComputerPlayer.calculateRiskFactor Spec.riskFactor
  rw [calculateStandardDeviation_eq_spec, calculateExpectedValue_eq]
  unfold Spec.probabilityPrizeExceedsOffer Spec.expectedValue
  rw [List.countP_eq_length_filter]
  ring

/-! ### Claims -/

/-- C1: for every round number, `calculateBankOffer` returns 0 on an empty
pool and otherwise the mean of the hidden prizes times
`min 0.9 (0.10 + 0.05 * round)`. -/
theorem claim_C1 (hiddenPrizes : List ℚ) (round : ℕ) :
    DealOrNoDealGame.calculateBankOffer hiddenPrizes round =
      if hiddenPrizes = [] then 0
      else (hiddenPrizes.sum / hiddenPrizes.length)
        * min (9/10) (1/10 + (5/100) * (round : ℚ)) := by
  unfold DealOrNoDealGame.calculateBankOffer
  split
  · rfl
  · simp only []
    congr 1
    rcases le_or_lt (1/10 + (round : ℚ) * (5/100)) (9/10) with h | h
    · rw [if_neg (not_lt.mpr h), min_eq_right (by linarith)]
      ring
    · rw [if_pos h, min_eq_left (by linarith)]

/-- C2: the computer player's accept / reject decision coincides with the
spec's three-tier policy (including the empty-pool edge case), for every
square-root interpretation, offer and remaining-case count. -/
theorem claim_C2 (sqrtFn : ℚ → ℚ) (hiddenPrizes : List ℚ) (offer : ℚ)
    (casesRemaining : ℕ) :
    ComputerPlayer.shouldAcceptDeal sqrtFn hiddenPrizes offer casesRemaining = true ↔
      Spec.advisorAccepts sqrtFn hiddenPrizes offer casesRemaining := by
  unfold ComputerPlayer.shouldAcceptDeal Spec.advisorAccepts
  by_cases hemp : hiddenPrizes = []
  · simp [hemp]
  · rw [if_neg hemp, if_neg hemp]
    dsimp only
    by_cases h10 : 10 < casesRemaining
    · simp only [if_pos h10, decide_eq_true_eq, calculateExpectedValue_eq, Spec.expectedValue]
      constructor <;> intro <;> linarith
    · by_cases h5 : 5 < casesRemaining
      · simp only [if_neg h10, if_pos h5, decide_eq_true_eq, calculateExpectedValue_eq,
          Spec.expectedValue]
        constructor <;> intro <;> linarith
      · simp only [if_neg h10, if_neg h5, Bool.or_eq_true, decide_eq_true_eq,
          calculateRiskFactor_eq_spec, calculateExpectedValue_eq, Spec.expectedValue]
        constructor
        · rintro (h | h)
          · exact Or.inl h
          · right; linarith
        · rintro (h | h)
          · exact Or.inl h
          · right; linarith

/-- C6: the advisor's standard deviation is the population standard
deviation of the hidden prizes (squared deviations summed, divided by the
count, then square-rooted) and is 0 whenever fewer than two values
remain. -/
theorem claim_C6 (sqrtFn : ℚ → ℚ) (hiddenPrizes : List ℚ) :
    ComputerPlayer.calculateStandardDeviation sqrtFn hiddenPrizes
        = Spec.stdDeviation sqrtFn hiddenPrizes ∧
      (hiddenPrizes.length < 2 →
        ComputerPlayer.calculateStandardDeviation sqrtFn hiddenPrizes = 0) := by
  refine ⟨calculateStandardDeviation_eq_spec sqrtFn hiddenPrizes, fun h => ?_⟩
  unfold ComputerPlayer.calculateStandardDeviation
  rw [if_pos (by omega)]

/-- Witness for C6 at the one-element list `[7]`. -/
theorem claim_C6_witness :
    ComputerPlayer.calculateStandardDeviation (fun q => q) [7] = 0 :=
  (claim_C6 (fun q => q) [7]).2 (by decide)

/-- C3: opening a single case that is already open or whose identifier
lies outside `[0, 25]` fails with a `GameStateException`, and the state
carried at the throw is exactly the state before the call (in particular
the opened-set and the derived hidden-prize list are unchanged). -/
theorem claim_C3 (st : GameState) (caseId : ℤ)
    (h : caseId < 0 ∨ 26 ≤ caseId ∨ st.casesOpened.getD caseId.toNat false = true) :
    DealOrNoDealGame.openCases [caseId] st = Except.error st := by
  unfold DealOrNoDealGame.openCases DealOrNoDealGame.openCasesLoop
  rcases h with h | h | h
  · rw [if_pos (Or.inl h)]
  · rw [if_pos (Or.inr h)]
  · by_cases hr : caseId < 0 ∨ 26 ≤ caseId
    · rw [if_pos hr]
    · rw [if_neg hr, if_pos h]

/-- Witness for C3: identifier 26 is out of range on a fresh state. -/
theorem claim_C3_witness :
    ((26 : ℤ) < 0 ∨ 26 ≤ (26 : ℤ)
        ∨ (DealOrNoDealGame.initState 0).casesOpened.getD (26 : ℤ).toNat false = true) ∧
      DealOrNoDealGame.openCases [26] (DealOrNoDealGame.initState 0)
        = Except.error (DealOrNoDealGame.initState 0) :=
  ⟨Or.inr (Or.inl (by decide)), claim_C3 _ 26 (Or.inr (Or.inl (by decide)))⟩

/-! ### List bookkeeping helpers -/

theorem count_true_add_count_false (o : List Bool) :
    o.count true + o.count false = o.length := by
  induction o with
  | nil => simp
  | cons b t ih => cases b <;> simp [List.count_cons] <;> omega

theorem filterMap_zip_length (o : List Bool) (v : List ℚ) (h : o.length = v.length) :
    ((o.zip v).filterMap (fun p => if p.1 then none else some p.2)).length
      = o.count false := by
  induction o generalizing v with
  | nil => simp
  | cons b t ih =>
    cases v with
    | nil => simp at h
    | cons x xs =>
      have ht : t.length = xs.length := by simpa using h
      cases b <;>
        simp [List.zip_cons_cons, List.filterMap_cons, ih xs ht, List.count_cons]

instance : IsTotal ℚ (· ≥ ·) := ⟨fun a b => le_total b a⟩

instance : IsTrans ℚ (· ≥ ·) := ⟨fun _ _ _ h h2 => le_trans h2 h⟩

theorem updateRemainingPrizes_length (o : List Bool) (v : List ℚ)
    (h : o.length = v.length) :
    (DealOrNoDealGame.updateRemainingPrizes o v).length = o.count false := by
  unfold DealOrNoDealGame.updateRemainingPrizes
  rw [(List.perm_insertionSort _ _).length_eq]
  exact filterMap_zip_length o v h

theorem updateRemainingPrizes_sorted (o : List Bool) (v : List ℚ) :
    (DealOrNoDealGame.updateRemainingPrizes o v).Sorted (· ≥ ·) :=
  List.sorted_insertionSort _ _

/-- C4: after opening `K` distinct cases out of 26, the recomputed
hidden-prize list has exactly `26 - K` entries and is sorted in
descending order. -/
theorem claim_C4 (casesOpened : List Bool) (caseValues : List ℚ)
    (ho : casesOpened.length = 26) (hv : caseValues.length = 26) :
    (DealOrNoDealGame.updateRemainingPrizes casesOpened caseValues).length
        = 26 - casesOpened.count true ∧
      (DealOrNoDealGame.updateRemainingPrizes casesOpened caseValues).Sorted (· ≥ ·) := by
  constructor
  · rw [updateRemainingPrizes_length casesOpened caseValues (by omega)]
    have := count_true_add_count_false casesOpened
    omega
  · exact updateRemainingPrizes_sorted casesOpened caseValues

/-- Witness for C4 on a fresh opened-set and the prize catalog. -/
theorem claim_C4_witness :
    (List.replicate 26 false).length = 26 ∧ allPrizes.length = 26 ∧
      ((DealOrNoDealGame.updateRemainingPrizes (List.replicate 26 false) allPrizes).length
          = 26 - (List.replicate 26 false).count true ∧
        (DealOrNoDealGame.updateRemainingPrizes
          (List.replicate 26 false) allPrizes).Sorted (· ≥ ·)) :=
  ⟨by decide, by decide, claim_C4 _ _ (by decide) (by decide)⟩

theorem range_filter_getD_length (o : List Bool) :
    ((List.range o.length).filter (fun i => !(o.getD i true))).length = o.count false := by
  induction o with
  | nil => simp
  | cons b t ih =>
    rw [List.length_cons, List.range_succ_eq_map]
    cases b <;>
      simp [List.filter_cons, List.filter_map, Function.comp_def,
        List.getD_cons_zero, List.getD_cons_succ, List.count_cons,
        List.getD_eq_getElem?_getD] at ih ⊢ <;> omega

theorem availableCases_nodup (o : List Bool) :
    (((List.range o.length).filter (fun i => !(o.getD i true))).map Int.ofNat).Nodup :=
  ((List.nodup_range _).filter _).map (fun _ _ h => Int.ofNat_inj.mp h)

theorem mem_availableCases {o : List Bool} {x : ℤ}
    (hx : x ∈ ((List.range o.length).filter (fun i => !(o.getD i true))).map Int.ofNat) :
    o.getD x.toNat true = false := by
  rcases List.mem_map.mp hx with ⟨i, hi, rfl⟩
  rcases List.mem_filter.mp hi with ⟨-, hfi⟩
  simpa using hfi

theorem availableCases_length (o : List Bool) :
    (((List.range o.length).filter (fun i => !(o.getD i true))).map Int.ofNat).length
      = o.count false := by
  rw [List.length_map]; exact range_filter_getD_length o

/-- C7: under a permutation-producing generator, `selectCasesToOpen` never
returns a case marked open, never returns duplicates, and returns exactly
`min count unopened` identifiers. -/
theorem claim_C7 (shuffleSel : List ℤ → List ℤ) (casesOpened : List Bool)
    (numToOpen : ℕ) (hperm : ∀ l, (shuffleSel l).Perm l) :
    (∀ id ∈ ComputerPlayer.selectCasesToOpen shuffleSel casesOpened numToOpen,
        casesOpened.getD id.toNat true = false) ∧
      (ComputerPlayer.selectCasesToOpen shuffleSel casesOpened numToOpen).Nodup ∧
      (ComputerPlayer.selectCasesToOpen shuffleSel casesOpened numToOpen).length
        = min numToOpen (casesOpened.count false) := by
  unfold ComputerPlayer.selectCasesToOpen
  dsimp only
  have hP := hperm (((List.range casesOpened.length).filter
    (fun i => !(casesOpened.getD i true))).map Int.ofNat)
  refine ⟨?_, ?_, ?_⟩
  · intro caseId hid
    exact mem_availableCases (hP.mem_iff.mp (List.mem_of_mem_take hid))
  · exact (List.take_sublist _ _).nodup (hP.nodup_iff.mpr (availableCases_nodup _))
  · rw [List.length_take, hP.length_eq, availableCases_length]
    omega

/-- Witness for C7: the identity generator on a partially opened set. -/
theorem claim_C7_witness :
    (∀ l : List ℤ, (id l).Perm l) ∧
      ((∀ caseId ∈ ComputerPlayer.selectCasesToOpen id [true, false, false] 5,
          [true, false, false].getD caseId.toNat true = false) ∧
        (ComputerPlayer.selectCasesToOpen id [true, false, false] 5).Nodup ∧
        (ComputerPlayer.selectCasesToOpen id [true, false, false] 5).length
          = min 5 ([true, false, false].count false)) :=
  ⟨fun l => List.Perm.refl l, claim_C7 id _ 5 (fun l => List.Perm.refl l)⟩


open DealOrNoDealGame

theorem openCasesLoop_ok_core :
    ∀ (cs : List ℤ) (st st' : GameState), openCasesLoop cs st = Except.ok st' →
      st'.caseValues = st.caseValues ∧ st'.playerCase = st.playerCase
        ∧ st'.round = st.round := by
  intro cs
  induction cs with
  | nil =>
    intro st st' h
    simp only [openCasesLoop] at h
    cases h
    exact ⟨rfl, rfl, rfl⟩
  | cons c rest ih =>
    intro st st' h
    simp only [openCasesLoop] at h
    split at h
    · cases h
    · split at h
      · cases h
      · have hres := ih _ _ h
        exact hres

theorem openCases_ok_core (cs : List ℤ) (st st' : GameState)
    (h : openCases cs st = Except.ok st') :
    st'.caseValues = st.caseValues ∧ st'.playerCase = st.playerCase
      ∧ st'.round = st.round := by
  unfold openCases at h
  split at h
  · rename_i stl heq
    cases h
    have hres := openCasesLoop_ok_core _ _ _ heq
    exact hres
  · cases h

theorem playRounds_spec (sel : ℕ → List ℤ) (dec : ℕ → ℚ → Bool) :
    ∀ (schedule : List ℕ) (k : ℕ) (st : GameState),
      (playRounds sel dec schedule k st).2.2 ≤ schedule.length ∧
      (∀ p, (playRounds sel dec schedule k st).1 = Outcome.finalReveal p →
        p = playerCaseValue st) := by
  intro schedule
  induction schedule with
  | nil =>
    intro k st
    refine ⟨le_rfl, fun p h => ?_⟩
    simp only [playRounds] at h
    cases h
    rfl
  | cons n rest ih =>
    intro k st
    simp only [playRounds]
    split
    · exact ⟨Nat.zero_le _, fun p h => by cases h; rfl⟩
    · split
      · exact ⟨Nat.zero_le _, fun p h => by cases h⟩
      · rename_i st' hoc
        obtain ⟨hcv, hpc, -⟩ := openCases_ok_core _ _ _ hoc
        split
        · refine ⟨Nat.zero_le _, fun p h => ?_⟩
          cases h
          unfold playerCaseValue
          rw [hcv, hpc]
        · split
          · exact ⟨by simp, fun p h => by cases h⟩
          · obtain ⟨ihc, ihp⟩ := ih (k + 1) { st' with round := st'.round + 1 }
            refine ⟨by simpa using Nat.succ_le_succ ihc, fun p h => ?_⟩
            rw [ihp p h]
            unfold playerCaseValue
            rw [hcv, hpc]

theorem playRounds_reject_no_deal (sel : ℕ → List ℤ) :
    ∀ (schedule : List ℕ) (k : ℕ) (st : GameState),
      (playRounds sel (fun _ _ => false) schedule k st).1 = Outcome.aborted ∨
      ∃ p, (playRounds sel (fun _ _ => false) schedule k st).1
        = Outcome.finalReveal p := by
  intro schedule
  induction schedule with
  | nil =>
    intro k st
    exact Or.inr ⟨_, rfl⟩
  | cons n rest ih =>
    intro k st
    simp only [playRounds]
    split
    · exact Or.inr ⟨_, rfl⟩
    · split
      · exact Or.inl rfl
      · split
        · exact Or.inr ⟨_, rfl⟩
        · rw [if_neg (by simp)]
          exact ih (k + 1) _

/-- C5: with every offer rejected, the human game loop performs at most
the 9 scheduled decision rounds, and unless the instance was abandoned by
a `GameStateException` it ends in the final reveal paying exactly the
prize behind the player's reserved case. -/
theorem claim_C5 (sel : ℕ → List ℤ) (shuffleP : List ℚ → List ℚ) (playerChoice : ℤ) :
    (playGameRun sel (fun _ _ => false) shuffleP playerChoice).2.2 ≤ 9 ∧
      ((playGameRun sel (fun _ _ => false) shuffleP playerChoice).1 = Outcome.aborted ∨
        (playGameRun sel (fun _ _ => false) shuffleP playerChoice).1
          = Outcome.finalReveal
            (playerCaseValue (shufflePrizes shuffleP (initState playerChoice)))) := by
  unfold playGameRun
  obtain ⟨hc, hp⟩ := playRounds_spec sel (fun _ _ => false) casesToOpenPerRound 0
    (shufflePrizes shuffleP (initState playerChoice))
  refine ⟨hc, ?_⟩
  have hnd := playRounds_reject_no_deal sel casesToOpenPerRound 0
    (shufflePrizes shuffleP (initState playerChoice))
  rcases hnd with h | ⟨p, h⟩
  · exact Or.inl h
  · right
    rw [h, hp p h]

theorem getD_set_ne (l : List Bool) (i j : ℕ) (b : Bool) (h : i ≠ j) :
    (l.set i b).getD j false = l.getD j false := by
  rw [List.getD_eq_getElem?_getD, List.getD_eq_getElem?_getD,
    List.getElem?_set_ne h]

theorem openCasesLoop_preserves_player (p : ℤ) (hp : 0 ≤ p) :
    ∀ (cs : List ℤ) (st : GameState), p ∉ cs →
      st.casesOpened.getD p.toNat false = false →
      (∀ st', openCasesLoop cs st = Except.ok st' →
          st'.casesOpened.getD p.toNat false = false) ∧
      (∀ st', openCasesLoop cs st = Except.error st' →
          st'.casesOpened.getD p.toNat false = false) := by
  intro cs
  induction cs with
  | nil =>
    intro st _ hst
    refine ⟨fun st' h => ?_, fun st' h => ?_⟩
    · simp only [openCasesLoop] at h; cases h; exact hst
    · simp only [openCasesLoop] at h; cases h
  | cons c rest ih =>
    intro st hmem hst
    have hcp : c ≠ p := fun h => hmem (h ▸ List.mem_cons_self c rest)
    have hrest : p ∉ rest := fun h => hmem (List.mem_cons_of_mem c h)
    refine ⟨fun st' h => ?_, fun st' h => ?_⟩ <;>
      simp only [openCasesLoop] at h
    · split at h
      · cases h
      · split at h
        · cases h
        · rename_i hrange _
          have hc0 : (0:ℤ) ≤ c := by omega
          have hne : c.toNat ≠ p.toNat := by omega
          have hst2 : ((st.casesOpened.set c.toNat true)).getD p.toNat false = false := by
            rw [getD_set_ne _ _ _ _ hne]; exact hst
          exact (ih _ hrest hst2).1 st' h
    · split at h
      · cases h; exact hst
      · split at h
        · cases h; exact hst
        · rename_i hrange _
          have hc0 : (0:ℤ) ≤ c := by omega
          have hne : c.toNat ≠ p.toNat := by omega
          have hst2 : ((st.casesOpened.set c.toNat true)).getD p.toNat false = false := by
            rw [getD_set_ne _ _ _ _ hne]; exact hst
          exact (ih _ hrest hst2).2 st' h

theorem openCases_preserves_player (p : ℤ) (hp : 0 ≤ p) (cs : List ℤ)
    (st : GameState) (hmem : p ∉ cs)
    (hst : st.casesOpened.getD p.toNat false = false) :
    (∀ st', openCases cs st = Except.ok st' →
        st'.casesOpened.getD p.toNat false = false) ∧
    (∀ st', openCases cs st = Except.error st' →
        st'.casesOpened.getD p.toNat false = false) := by
  obtain ⟨hok, herr⟩ := openCasesLoop_preserves_player p hp cs st hmem hst
  constructor
  · intro st' h
    unfold openCases at h
    split at h
    · rename_i stl heq
      cases h
      exact hok stl heq
    · cases h
  · intro st' h
    unfold openCases at h
    split at h
    · cases h
    · rename_i heq
      cases h
      exact herr _ heq

theorem playRounds_preserves_player (sel : ℕ → List ℤ) (dec : ℕ → ℚ → Bool) :
    ∀ (schedule : List ℕ) (k : ℕ) (st : GameState), 0 ≤ st.playerCase →
      (∀ i, st.playerCase ∉ sel i) →
      st.casesOpened.getD st.playerCase.toNat false = false →
      ((playRounds sel dec schedule k st).2.1).casesOpened.getD
        st.playerCase.toNat false = false := by
  intro schedule
  induction schedule with
  | nil =>
    intro k st _ _ hst
    exact hst
  | cons n rest ih =>
    intro k st hp hsel hst
    simp only [playRounds]
    split
    · exact hst
    · obtain ⟨hok, herr⟩ :=
        openCases_preserves_player st.playerCase hp (sel k) st (hsel k) hst
      split
      · rename_i stErr heq
        exact herr stErr heq
      · rename_i st' heq
        obtain ⟨-, hpc, -⟩ := openCases_ok_core _ _ _ heq
        have hst' : st'.casesOpened.getD st.playerCase.toNat false = false :=
          hok st' heq
        split
        · exact hst'
        · split
          · exact hst'
          · have hres := ih (k + 1) { st' with round := st'.round + 1 }
              (by simpa [hpc] using hp) (by simpa [hpc] using hsel)
              (by simpa [hpc] using hst')
            simpa [hpc] using hres

theorem computerRounds_preserves_player (sqrtFn : ℚ → ℚ) (shuffleSel : List ℤ → List ℤ) :
    ∀ (schedule : List ℕ) (st : GameState), 0 ≤ st.playerCase →
      st.casesOpened.getD st.playerCase.toNat false = false →
      ((computerRounds sqrtFn shuffleSel schedule st).2.1).casesOpened.getD
        st.playerCase.toNat false = false := by
  intro schedule
  induction schedule with
  | nil =>
    intro st _ hst
    exact hst
  | cons n rest ih =>
    intro st hp hst
    simp only [computerRounds]
    split
    · exact hst
    · have hnotmem : st.playerCase ∉
          (ComputerPlayer.selectCasesToOpen shuffleSel st.casesOpened n).filter
            (fun c => decide (c ≠ st.playerCase)) := by
        simp [List.mem_filter]
      obtain ⟨hok, herr⟩ := openCases_preserves_player st.playerCase hp _ st hnotmem hst
      split
      · rename_i stErr heq
        exact herr stErr heq
      · rename_i st' heq
        obtain ⟨-, hpc, -⟩ := openCases_ok_core _ _ _ heq
        have hst' : st'.casesOpened.getD st.playerCase.toNat false = false :=
          hok st' heq
        split
        · exact hst'
        · split
          · exact hst'
          · have hres := ih { st' with round := st'.round + 1 }
              (by simpa [hpc] using hp) (by simpa [hpc] using hst')
            simpa [hpc] using hres

/-- C8: in both human play and computer auto-play, the player's reserved
case is never opened: if `casesOpened[playerCase]` is false when a round
sequence starts, it is still false in the state in which the run
concludes (this covers every reachable state, since the schedule and the
starting state are arbitrary).  For the human loop this relies on the
input-validation loop (`src/main.cpp:455-456`), which never lets the
selection contain the player's case. -/
theorem claim_C8 (sqrtFn : ℚ → ℚ) (shuffleSel : List ℤ → List ℤ)
    (sel : ℕ → List ℤ) (dec : ℕ → ℚ → Bool) (schedule : List ℕ) (k : ℕ)
    (st : GameState) (hp : 0 ≤ st.playerCase)
    (hopen : st.casesOpened.getD st.playerCase.toNat false = false) :
    ((∀ i, st.playerCase ∉ sel i) →
        ((playRounds sel dec schedule k st).2.1).casesOpened.getD
          st.playerCase.toNat false = false) ∧
      ((computerRounds sqrtFn shuffleSel schedule st).2.1).casesOpened.getD
        st.playerCase.toNat false = false :=
  ⟨fun hsel => playRounds_preserves_player sel dec schedule k st hp hsel hopen,
    computerRounds_preserves_player sqrtFn shuffleSel schedule st hp hopen⟩

/-- Witness for C8: a full game from a fresh shuffled state with the
reserved case 3, empty human selections and the identity generator. -/
theorem claim_C8_witness :
    0 ≤ (shufflePrizes id (initState 3)).playerCase ∧
      (shufflePrizes id (initState 3)).casesOpened.getD
        (shufflePrizes id (initState 3)).playerCase.toNat false = false ∧
      ((playRounds (fun _ => []) (fun _ _ => false) casesToOpenPerRound 0
          (shufflePrizes id (initState 3))).2.1).casesOpened.getD
        (shufflePrizes id (initState 3)).playerCase.toNat false = false ∧
      ((computerRounds (fun q => q) id casesToOpenPerRound
          (shufflePrizes id (initState 3))).2.1).casesOpened.getD
        (shufflePrizes id (initState 3)).playerCase.toNat false = false :=
  ⟨by decide, by decide,
    (claim_C8 (fun q => q) id (fun _ => []) (fun _ _ => false) casesToOpenPerRound 0
        (shufflePrizes id (initState 3)) (by decide) (by decide)).1
      (fun i => List.not_mem_nil _),
    (claim_C8 (fun q => q) id (fun _ => []) (fun _ _ => false) casesToOpenPerRound 0
        (shufflePrizes id (initState 3)) (by decide) (by decide)).2⟩

/-! ### Positivity of concluded payouts (C9) -/

/-- A concluded outcome pays a strictly positive amount (abandoned
instances record nothing). -/
def payoutPositive : Outcome → Prop
  | Outcome.deal p => 0 < p
  | Outcome.finalReveal p => 0 < p
  | Outcome.aborted => True

/-- All state components that feed a payout are positive / in range. -/
def statePos (st : GameState) : Prop :=
  (∀ x ∈ st.caseValues, 0 < x) ∧ (∀ x ∈ st.remainingPrizes, 0 < x) ∧
    0 ≤ st.playerCase ∧ st.playerCase.toNat < st.caseValues.length

theorem mem_updateRemainingPrizes {o : List Bool} {v : List ℚ} {x : ℚ}
    (hx : x ∈ updateRemainingPrizes o v) : x ∈ v := by
  unfold updateRemainingPrizes at hx
  have hx2 := (List.perm_insertionSort _ _).mem_iff.mp hx
  rcases List.mem_filterMap.mp hx2 with ⟨p, hp, hpx⟩
  rcases Bool.eq_false_or_eq_true p.1 with hb | hb
  · rw [hb] at hpx
    simp at hpx
  · rw [hb] at hpx
    simp only [Bool.false_eq_true, if_false, Option.some.injEq] at hpx
    exact hpx ▸ (List.of_mem_zip hp).2

theorem getD_pos {l : List ℚ} {i : ℕ} (hi : i < l.length)
    (hpos : ∀ x ∈ l, 0 < x) : 0 < l.getD i 0 := by
  rw [List.getD_eq_getElem l 0 hi]
  exact hpos _ (List.getElem_mem hi)

theorem playerCaseValue_pos {st : GameState} (h : statePos st) :
    0 < playerCaseValue st := by
  obtain ⟨hcv, -, -, hlt⟩ := h
  exact getD_pos hlt hcv

theorem calculateBankOffer_pos (l : List ℚ) (round : ℕ) (hl : l ≠ [])
    (hpos : ∀ x ∈ l, 0 < x) : 0 < calculateBankOffer l round := by
  unfold calculateBankOffer
  rw [if_neg hl]
  dsimp only
  have hs : 0 < l.sum := List.sum_pos l hpos hl
  have hlen : (0:ℚ) < l.length :=
    Nat.cast_pos.mpr (List.length_pos.mpr hl)
  refine mul_pos (div_pos hs hlen) ?_
  have hr : (0:ℚ) ≤ round := Nat.cast_nonneg round
  split
  · norm_num
  · nlinarith

theorem openCases_ok_statePos {cs : List ℤ} {st st' : GameState}
    (h : openCases cs st = Except.ok st') (hst : statePos st) : statePos st' := by
  obtain ⟨hcv, hrem, hp0, hlt⟩ := hst
  obtain ⟨ecv, epc, -⟩ := openCases_ok_core _ _ _ h
  have hrem' : st'.remainingPrizes
      = updateRemainingPrizes st'.casesOpened st'.caseValues := by
    unfold openCases at h
    split at h
    · rename_i stl heq
      cases h
      rfl
    · cases h
  refine ⟨by rw [ecv]; exact hcv, ?_, by rw [epc]; exact hp0, by rw [epc, ecv]; exact hlt⟩
  intro x hx
  rw [hrem'] at hx
  exact hcv x (ecv ▸ mem_updateRemainingPrizes hx)

theorem playRounds_payoutPositive (sel : ℕ → List ℤ) (dec : ℕ → ℚ → Bool) :
    ∀ (schedule : List ℕ) (k : ℕ) (st : GameState), statePos st →
      payoutPositive (playRounds sel dec schedule k st).1 := by
  intro schedule
  induction schedule with
  | nil =>
    intro k st hst
    exact playerCaseValue_pos hst
  | cons n rest ih =>
    intro k st hst
    simp only [playRounds]
    split
    · exact playerCaseValue_pos hst
    · split
      · trivial
      · rename_i st' heq
        have hst' : statePos st' := openCases_ok_statePos heq hst
        split
        · exact playerCaseValue_pos hst'
        · rename_i hlen
          split
          · exact calculateBankOffer_pos _ _
              (by intro h; rw [h] at hlen; simp at hlen) hst'.2.1
          · have hres := ih (k + 1) { st' with round := st'.round + 1 }
              ⟨hst'.1, hst'.2.1, hst'.2.2.1, hst'.2.2.2⟩
            exact hres

theorem computerRounds_payoutPositive (sqrtFn : ℚ → ℚ) (shuffleSel : List ℤ → List ℤ) :
    ∀ (schedule : List ℕ) (st : GameState), statePos st →
      payoutPositive (computerRounds sqrtFn shuffleSel schedule st).1 := by
  intro schedule
  induction schedule with
  | nil =>
    intro st hst
    exact playerCaseValue_pos hst
  | cons n rest ih =>
    intro st hst
    simp only [computerRounds]
    split
    · exact playerCaseValue_pos hst
    · split
      · trivial
      · rename_i st' heq
        have hst' : statePos st' := openCases_ok_statePos heq hst
        split
        · exact playerCaseValue_pos hst'
        · rename_i hlen
          split
          · exact calculateBankOffer_pos _ _
              (by intro h; rw [h] at hlen; simp at hlen) hst'.2.1
          · have hres := ih { st' with round := st'.round + 1 }
              ⟨hst'.1, hst'.2.1, hst'.2.2.1, hst'.2.2.2⟩
            exact hres

unseal Rat.mul Rat.inv in
theorem allPrizes_pos : ∀ x ∈ allPrizes, 0 < x := by decide

theorem shufflePrizes_statePos (shuffleP : List ℚ → List ℚ) (choice : ℤ)
    (hperm : (shuffleP allPrizes).Perm allPrizes)
    (h0 : 0 ≤ choice) (h26 : choice < 26) :
    statePos (shufflePrizes shuffleP (initState choice)) := by
  have hlen : (shuffleP allPrizes).length = 26 := by
    rw [hperm.length_eq]; rfl
  have hpos : ∀ x ∈ shuffleP allPrizes, 0 < x :=
    fun x hx => allPrizes_pos x (hperm.mem_iff.mp hx)
  refine ⟨hpos, ?_, h0, ?_⟩
  · intro x hx
    exact hpos x (mem_updateRemainingPrizes hx)
  · show choice.toNat < (shuffleP allPrizes).length
    omega

theorem foldl_updateStats_invariant (ws : List ℚ) :
    ∀ s : GameStats, s.gamesWon = s.gamesPlayed → (∀ w ∈ ws, 0 < w) →
      (ws.foldl GameStats.updateStats s).gamesWon
        = (ws.foldl GameStats.updateStats s).gamesPlayed := by
  induction ws with
  | nil =>
    intro s h _
    exact h
  | cons w t ih =>
    intro s h hpos
    simp only [List.foldl_cons]
    refine ih _ ?_ (fun x hx => hpos x (List.mem_cons_of_mem w hx))
    unfold GameStats.updateStats
    dsimp only
    rw [if_pos (hpos w (List.mem_cons_self w t))]
    omega

theorem foldl_updateStats_played (ws : List ℚ) :
    ∀ s : GameStats,
      (ws.foldl GameStats.updateStats s).gamesPlayed = s.gamesPlayed + ws.length := by
  induction ws with
  | nil =>
    intro s
    simp
  | cons w t ih =>
    intro s
    simp only [List.foldl_cons, List.length_cons]
    rw [ih]
    show s.gamesPlayed + 1 + t.length = s.gamesPlayed + (t.length + 1)
    omega

/-- C9: a concluded game always records a strictly positive payout (an
accepted offer over a non-empty positive pool, or the catalog value behind
the reserved case), so starting from zeroed statistics every game counts
as won: after any sequence of `updateStats` calls with positive winnings,
`gamesWon = gamesPlayed` and the displayed win rate is 100%. -/
theorem claim_C9 (sqrtFn : ℚ → ℚ) (shuffleSel : List ℤ → List ℤ)
    (sel : ℕ → List ℤ) (dec : ℕ → ℚ → Bool) (shuffleP : List ℚ → List ℚ)
    (playerChoice : ℤ) (payouts : List ℚ)
    (hperm : ∀ l, (shuffleP l).Perm l) (h0 : 0 ≤ playerChoice)
    (h26 : playerChoice < 26) :
    payoutPositive (playGameRun sel dec shuffleP playerChoice).1 ∧
      payoutPositive (computerPlayRun sqrtFn shuffleSel shuffleP playerChoice).1 ∧
      ((∀ w ∈ payouts, 0 < w) →
        (payouts.foldl GameStats.updateStats initialGameStats).gamesWon
            = (payouts.foldl GameStats.updateStats initialGameStats).gamesPlayed ∧
          (payouts ≠ [] →
            ((payouts.foldl GameStats.updateStats initialGameStats).gamesWon : ℚ)
              / ((payouts.foldl GameStats.updateStats initialGameStats).gamesPlayed : ℚ)
              * 100 = 100)) := by
  have hsp := shufflePrizes_statePos shuffleP playerChoice (hperm allPrizes) h0 h26
  refine ⟨playRounds_payoutPositive sel dec casesToOpenPerRound 0 _ hsp,
    computerRounds_payoutPositive sqrtFn shuffleSel casesToOpenPerRound _ hsp, ?_⟩
  intro hpos
  have hwin := foldl_updateStats_invariant payouts initialGameStats rfl hpos
  refine ⟨hwin, fun hne => ?_⟩
  have hpl := foldl_updateStats_played payouts initialGameStats
  have hplpos : 0 < (payouts.foldl GameStats.updateStats initialGameStats).gamesPlayed := by
    rw [hpl]
    have := List.length_pos.mpr hne
    omega
  rw [hwin, div_self (by exact_mod_cast Nat.pos_iff_ne_zero.mp hplpos)]
  norm_num

/-- Witness for C9: the identity shuffles, reserved case 0, all offers
rejected, and the single recorded payout 5. -/
theorem claim_C9_witness :
    (∀ l : List ℚ, (id l).Perm l) ∧ (0:ℤ) ≤ 0 ∧ (0:ℤ) < 26 ∧
      (payoutPositive (playGameRun (fun _ => []) (fun _ _ => false) id 0).1 ∧
        payoutPositive (computerPlayRun (fun q => q) id id 0).1 ∧
        ((∀ w ∈ [(5:ℚ)], 0 < w) →
          ([(5:ℚ)].foldl GameStats.updateStats initialGameStats).gamesWon
              = ([(5:ℚ)].foldl GameStats.updateStats initialGameStats).gamesPlayed ∧
            ([(5:ℚ)] ≠ [] →
              (([(5:ℚ)].foldl GameStats.updateStats initialGameStats).gamesWon : ℚ)
                / (([(5:ℚ)].foldl GameStats.updateStats initialGameStats).gamesPlayed : ℚ)
                * 100 = 100))) :=
  ⟨fun l => List.Perm.refl l, by decide, by decide,
    claim_C9 (fun q => q) id (fun _ => []) (fun _ _ => false) id 0 [5]
      (fun l => List.Perm.refl l) (by decide) (by decide)⟩

theorem selectCasesToOpen_nodup (shuffleSel : List ℤ → List ℤ) (o : List Bool)
    (n : ℕ) (hperm : ∀ l, (shuffleSel l).Perm l) :
    (ComputerPlayer.selectCasesToOpen shuffleSel o n).Nodup := by
  unfold ComputerPlayer.selectCasesToOpen
  exact (List.take_sublist _ _).nodup ((hperm _).nodup_iff.mpr (availableCases_nodup _))

theorem selectCasesToOpen_length (shuffleSel : List ℤ → List ℤ) (o : List Bool)
    (n : ℕ) (hperm : ∀ l, (shuffleSel l).Perm l) :
    (ComputerPlayer.selectCasesToOpen shuffleSel o n).length = min n (o.count false) := by
  unfold ComputerPlayer.selectCasesToOpen
  rw [List.length_take, (hperm _).length_eq, availableCases_length]
  omega

theorem length_filter_ne (p : ℤ) : ∀ (l : List ℤ), l.Nodup →
    ((p ∈ l → (l.filter (fun c => decide (c ≠ p))).length = l.length - 1) ∧
      (p ∉ l → (l.filter (fun c => decide (c ≠ p))).length = l.length)) := by
  intro l
  induction l with
  | nil => simp
  | cons a t ih =>
    intro hnd
    obtain ⟨ha, ht⟩ := List.nodup_cons.mp hnd
    obtain ⟨ih1, ih2⟩ := ih ht
    constructor
    · intro hmem
      rcases List.mem_cons.mp hmem with rfl | hmem2
      · simp only [List.filter_cons]
        rw [if_neg (by simp)]
        rw [ih2 ha]
        simp
      · have hne : a ≠ p := fun h => ha (h ▸ hmem2)
        simp only [List.filter_cons]
        rw [if_pos (by simpa using hne)]
        simp only [List.length_cons]
        rw [ih1 hmem2]
        have hp : 0 < t.length := List.length_pos.mpr (List.ne_nil_of_mem hmem2)
        omega
    · intro hmem
      have hne : a ≠ p := fun h => hmem (h ▸ List.mem_cons_self a t)
      have hpt : p ∉ t := fun h => hmem (List.mem_cons_of_mem a h)
      simp only [List.filter_cons]
      rw [if_pos (by simpa using hne)]
      simp only [List.length_cons]
      rw [ih2 hpt]

/- A fully concrete computer auto-play: identity shuffles, reserved case
0.  Case 0 is sampled (and then filtered away) in every round, so 11
cases are still hidden when the schedule runs out; every decision falls
in the early tier, so no square root is ever taken and the run is the
same for every square-root interpretation. -/
unseal Rat.mul Rat.inv in
theorem computerPlayRun_many_hidden (sqrtFn : ℚ → ℚ) :
    (computerPlayRun sqrtFn id id 0).1 = Outcome.finalReveal (1/100) ∧
      (computerPlayRun sqrtFn id id 0).2.1.remainingPrizes.length = 11 := by
  constructor
  · with_unfolding_all rfl
  · with_unfolding_all rfl

/-- C10: in computer auto-play the reserved case is filtered out of the
random sample only after sampling: whenever a round has enough unopened
cases, the list actually opened has length `roundCases` when the reserved
case was not sampled and `roundCases - 1` when it was; consequently a
full-schedule run can end with more than two cases still hidden (11 in
the exhibited run, for every square-root interpretation). -/
theorem claim_C10 (shuffleSel : List ℤ → List ℤ) (casesOpened : List Bool)
    (roundCases : ℕ) (playerCase : ℤ) (hperm : ∀ l, (shuffleSel l).Perm l)
    (havail : roundCases ≤ casesOpened.count false) :
    ((playerCase ∈ ComputerPlayer.selectCasesToOpen shuffleSel casesOpened roundCases →
        ((ComputerPlayer.selectCasesToOpen shuffleSel casesOpened roundCases).filter
            (fun c => decide (c ≠ playerCase))).length = roundCases - 1) ∧
      (playerCase ∉ ComputerPlayer.selectCasesToOpen shuffleSel casesOpened roundCases →
        ((ComputerPlayer.selectCasesToOpen shuffleSel casesOpened roundCases).filter
            (fun c => decide (c ≠ playerCase))).length = roundCases)) ∧
    (∀ sqrtFn : ℚ → ℚ,
      (computerPlayRun sqrtFn id id 0).1 = Outcome.finalReveal (1/100) ∧
        2 < (computerPlayRun sqrtFn id id 0).2.1.remainingPrizes.length) := by
  have hnd := selectCasesToOpen_nodup shuffleSel casesOpened roundCases hperm
  have hlen : (ComputerPlayer.selectCasesToOpen shuffleSel casesOpened roundCases).length
      = roundCases := by
    rw [selectCasesToOpen_length shuffleSel casesOpened roundCases hperm]
    omega
  obtain ⟨f1, f2⟩ := length_filter_ne playerCase _ hnd
  refine ⟨⟨fun h => by rw [f1 h, hlen], fun h => by rw [f2 h, hlen]⟩, fun sqrtFn => ?_⟩
  obtain ⟨h1, h2⟩ := computerPlayRun_many_hidden sqrtFn
  refine ⟨h1, ?_⟩
  rw [h2]
  omega

/-- Witness for C10: the identity generator on a fresh opened-set with
reserved case 0, which is sampled in the first round's batch of 6. -/
theorem claim_C10_witness :
    (∀ l : List ℤ, (id l).Perm l) ∧ 6 ≤ (List.replicate 26 false).count false ∧
      (0:ℤ) ∈ ComputerPlayer.selectCasesToOpen id (List.replicate 26 false) 6 ∧
      ((ComputerPlayer.selectCasesToOpen id (List.replicate 26 false) 6).filter
          (fun c => decide (c ≠ (0:ℤ)))).length = 6 - 1 :=
  ⟨fun l => List.Perm.refl l, by decide, by decide,
    (claim_C10 id (List.replicate 26 false) 6 0 (fun l => List.Perm.refl l)
        (by decide)).1.1 (by decide)⟩
